import Mathlib

/-!
Verification of the TeleMediaSpider core against its specification.

The definitions below are shallow embeddings of the TypeScript source:

* `GetChannels`              (index.ts, bisection on RPC failure)
* `AcceleratedDownloader.downloadChunk` retry loop (src/downloader.ts)
* the chunk partition and ordered-write machinery of
  `downloadFileToStream`   (src/downloader.ts)
* `shouldDownload`           (index.ts, size-range filter)
* the extension policy of `downloadChannelMedia` (index.ts) and
  `FolderStructureManager`   (src/folderStructureManager.ts)
* the `execQueue` dispatch worker of `startDownload` (index.ts)
* `getChannelMessages` / the `mediaSpider` ingestion tick (index.ts)

Telegram RPC calls are modelled as oracles (function parameters), since the
server is an external collaborator; everything else follows the source code
line by line.
-/

namespace TeleMediaSpider

/-! ## C9 — `GetChannels` bisection

Source (index.ts):

```
async function GetChannels(ids) {
    if (!ids.length) return [];
    const _get = async (ids) => {
        if (!ids.length) return [];
        return client.invoke(new Api.channels.GetChannels({ id: ids }))
            .then(v => v.chats, async _ => {
                if (ids.length < 2) return [];
                const mid   = Math.ceil(ids.length / 2);
                const part1 = ids.slice(0, mid);
                const part2 = ids.slice(mid);
                return [ ...await GetChannels(part1), ...await GetChannels(part2) ];
            });
    };
    return await _get(ids);
}
```

The RPC call is modelled by an oracle `rpc : List Id → Option (List Chat)`
(`none` = the invocation rejected). `Math.ceil(n / 2) = (n + 1) / 2` in
natural-number division.
-/

/-- `Math.ceil(n / 2)` for a natural `n`. -/
def jsCeilHalf (n : Nat) : Nat := (n + 1) / 2

theorem jsCeilHalf_lt {n : Nat} (h : 2 ≤ n) : jsCeilHalf n < n := by
  unfold jsCeilHalf; omega

theorem jsCeilHalf_pos {n : Nat} (h : 2 ≤ n) : 0 < jsCeilHalf n := by
  unfold jsCeilHalf; omega

/-- Shallow embedding of `GetChannels`: on RPC failure the id list is split at
`Math.ceil(n/2)` and both halves are retried recursively; a failing singleton
(or empty input) yields `[]`. -/
def GetChannels {Id Chat : Type} (rpc : List Id → Option (List Chat)) :
    List Id → List Chat
  | [] => []
  | i :: ids =>
    match rpc (i :: ids) with
    | some chats => chats
    | none =>
      if h : (i :: ids).length < 2 then []
      else
        have h2 : 2 ≤ (i :: ids).length := by omega
        have hlt := jsCeilHalf_lt h2
        have hpos := jsCeilHalf_pos h2
        GetChannels rpc ((i :: ids).take (jsCeilHalf (i :: ids).length)) ++
        GetChannels rpc ((i :: ids).drop (jsCeilHalf (i :: ids).length))
termination_by ids => ids.length
decreasing_by
  · have h3 := jsCeilHalf_lt h2
    have h4 := jsCeilHalf_pos h2
    simp only [List.length_take, List.length_cons] at h3 h4 ⊢
    omega
  · have h3 := jsCeilHalf_lt h2
    have h4 := jsCeilHalf_pos h2
    simp only [List.length_drop, List.length_cons] at h3 h4 ⊢
    omega

theorem GetChannels_nil {Id Chat : Type} (rpc : List Id → Option (List Chat)) :
    GetChannels rpc ([] : List Id) = ([] : List Chat) := by
  simp [GetChannels]

theorem GetChannels_ok {Id Chat : Type} (rpc : List Id → Option (List Chat))
    (i : Id) (ids : List Id) (chats : List Chat)
    (h : rpc (i :: ids) = some chats) :
    GetChannels rpc (i :: ids) = chats := by
  rw [GetChannels, h]

theorem GetChannels_err_single {Id Chat : Type}
    (rpc : List Id → Option (List Chat)) (i : Id)
    (h : rpc [i] = none) :
    GetChannels rpc [i] = ([] : List Chat) := by
  rw [GetChannels, h]
  simp

theorem GetChannels_err_split {Id Chat : Type}
    (rpc : List Id → Option (List Chat)) (ids : List Id)
    (h2 : 2 ≤ ids.length) (h : rpc ids = none) :
    GetChannels rpc ids =
      GetChannels rpc (ids.take (jsCeilHalf ids.length)) ++
      GetChannels rpc (ids.drop (jsCeilHalf ids.length)) := by
  match ids with
  | [] => simp at h2
  | i :: ids =>
    rw [GetChannels, h]
    have : ¬ (i :: ids).length < 2 := by omega
    simp only [this, dite_false]

/-- C9: empty input gives the empty result; an RPC error on a list of two or
more ids splits the list at `⌈n/2⌉` (so the first half has size `⌈n/2⌉`) and
returns the two recursive results concatenated in order; an error on a
singleton gives the empty result. -/
theorem C9_getChannels_bisection {Id Chat : Type}
    (rpc : List Id → Option (List Chat)) (ids : List Id) (i : Id) :
    GetChannels rpc ([] : List Id) = ([] : List Chat) ∧
    (rpc ids = none → 2 ≤ ids.length →
      (ids.take (jsCeilHalf ids.length)).length = jsCeilHalf ids.length ∧
      GetChannels rpc ids =
        GetChannels rpc (ids.take (jsCeilHalf ids.length)) ++
        GetChannels rpc (ids.drop (jsCeilHalf ids.length))) ∧
    (rpc [i] = none → GetChannels rpc [i] = ([] : List Chat)) := by
  refine ⟨GetChannels_nil rpc, fun herr hlen => ⟨?_, ?_⟩, fun herr => ?_⟩
  · simp [List.length_take]
    unfold jsCeilHalf
    omega
  · exact GetChannels_err_split rpc ids hlen herr
  · exact GetChannels_err_single rpc i herr

/-- Witness for C9 at a concrete oracle: the RPC fails on every list
containing the id `2` and succeeds (returning one chat per id) elsewhere;
the batch `[1, 2, 3]` is bisected and only id `2`'s result is lost. -/
theorem C9_getChannels_bisection_witness :
    (fun ids => if 2 ∈ ids then none else some ids : List Nat → Option (List Nat))
        [1, 2, 3] = none ∧
    2 ≤ ([1, 2, 3] : List Nat).length ∧
    GetChannels (fun ids => if 2 ∈ ids then none else some ids) [1, 2, 3] =
      GetChannels (fun ids => if 2 ∈ ids then none else some ids)
        (([1, 2, 3] : List Nat).take (jsCeilHalf 3)) ++
      GetChannels (fun ids => if 2 ∈ ids then none else some ids)
        (([1, 2, 3] : List Nat).drop (jsCeilHalf 3)) := by
  refine ⟨by decide, by decide, ?_⟩
  exact (C9_getChannels_bisection
    (fun ids => if 2 ∈ ids then none else some ids) [1, 2, 3] 1).2.1
    (by decide) (by decide) |>.2

/-! ## C1 / C5 — per-chunk retry loop of `downloadChunk`

Source (src/downloader.ts, `downloadFileToStream`):

```
const downloadChunk = async (task) => {
    activeDownloads++;
    try {
        const result = await this.client.invoke(new Api.upload.GetFile({
            location, offset: bigInt(task.offset), limit: task.limit, precise: true }));
        if (result instanceof Api.upload.File) { ... }
    } catch (error) {
        if (task.retries < this.config.maxRetries) {
            task.retries++;
            ...
            await this.sleep(1000 * task.retries);
            activeDownloads--;
            return await downloadChunk(task);
        } else {
            writeError = new Error(`Failed to download chunk at offset ${task.offset}
                after ${this.config.maxRetries} retries: ${error}`);
            throw writeError;
        }
    } finally { activeDownloads--; }
};
```

The `catch` block never inspects the error: there is no `FileMigrate` branch
and no sender replacement anywhere in the class (the `dcId` parameter of
`downloadFileToStream` is unused). The fetch is modelled by an oracle mapping
the attempt number (= the task's current retry counter) to a result.
-/

/-- The error variants a chunk fetch can surface. `fileMigrate` carries the
new data-center id of a `FILE_MIGRATE_X` RPC error. -/
inductive FetchError where
  | fileMigrate (newDc : Nat)
  | generic
deriving DecidableEq, Repr

/-- Result of one `upload.GetFile` invocation. -/
inductive FetchResult where
  | ok (bytes : List Nat)
  | err (e : FetchError)
deriving DecidableEq, Repr

/-- A chunk download task, as in `interface ChunkTask`. -/
structure ChunkTask where
  offset : Nat
  limit : Nat
  retries : Nat
deriving DecidableEq, Repr

/-- Successful outcome of `downloadChunk` on one task: the fetched bytes, the
final value of the task's retry counter, and the back-off sleeps (in ms)
performed before each re-attempt, in order. -/
structure ChunkOutcome where
  bytes : List Nat
  retries : Nat
  sleeps : List Nat
deriving DecidableEq, Repr

/-- The wrapped error thrown when the retry budget is exhausted; it identifies
the chunk's offset and the configured `maxRetries`. -/
structure ChunkFailure where
  offset : Nat
  maxRetries : Nat
deriving DecidableEq, Repr

/-- Shallow embedding of `downloadChunk`: attempt the fetch; on any error
(the kind is not inspected) with retries remaining, increment the retry
counter, sleep `1000 * retries` ms and re-attempt; otherwise abort with a
wrapped error naming the chunk's offset. -/
def downloadChunk (maxRetries : Nat) (oracle : Nat → FetchResult)
    (task : ChunkTask) : Except ChunkFailure ChunkOutcome :=
  match oracle task.retries with
  | .ok bytes => .ok ⟨bytes, task.retries, []⟩
  | .err _ =>
    if _h : task.retries < maxRetries then
      match downloadChunk maxRetries oracle
          ⟨task.offset, task.limit, task.retries + 1⟩ with
      | .ok o => .ok { o with sleeps := 1000 * (task.retries + 1) :: o.sleeps }
      | .error e => .error e
    else .error ⟨task.offset, maxRetries⟩
termination_by maxRetries - task.retries
decreasing_by omega

/-- An oracle that fails the first `f` attempts (with arbitrary error kinds)
and then succeeds with `bytes`. -/
def failFirst (f : Nat) (es : Nat → FetchError) (bytes : List Nat) :
    Nat → FetchResult :=
  fun k => if k < f then .err (es k) else .ok bytes

theorem downloadChunk_failFirst_ok (f maxRetries : Nat) (es : Nat → FetchError)
    (bytes : List Nat) (off lim r : Nat) (hr : r ≤ f) (hf : f ≤ maxRetries) :
    downloadChunk maxRetries (failFirst f es bytes) ⟨off, lim, r⟩ =
      .ok ⟨bytes, f, (List.range' (r + 1) (f - r)).map (1000 * ·)⟩ := by
  have hfr : f - r ≤ f - r := le_refl _
  obtain ⟨d, hd⟩ : ∃ d, f - r = d := ⟨f - r, rfl⟩
  induction d generalizing r with
  | zero =>
    have hrf : r = f := by omega
    unfold downloadChunk
    simp [failFirst, hrf, hd]
  | succ d ih =>
    have hrf : r < f := by omega
    unfold downloadChunk
    simp only [failFirst, hrf, if_pos]
    have hlt : r < maxRetries := by omega
    rw [dif_pos hlt]
    rw [ih (r + 1) (by omega) (by omega) (by omega)]
    have hstep : f - r = (f - (r + 1)) + 1 := by omega
    rw [hstep, List.range'_succ, List.map_cons]

theorem downloadChunk_failFirst_err (f maxRetries : Nat) (es : Nat → FetchError)
    (bytes : List Nat) (off lim r : Nat) (hr : r ≤ maxRetries)
    (hf : maxRetries < f) :
    downloadChunk maxRetries (failFirst f es bytes) ⟨off, lim, r⟩ =
      .error ⟨off, maxRetries⟩ := by
  obtain ⟨d, hd⟩ : ∃ d, maxRetries - r = d := ⟨maxRetries - r, rfl⟩
  induction d generalizing r with
  | zero =>
    have hrm : r = maxRetries := by omega
    unfold downloadChunk
    simp [failFirst, hrm, hf]
  | succ d ih =>
    have hrm : r < maxRetries := by omega
    unfold downloadChunk
    simp only [failFirst, show r < f by omega, if_pos]
    rw [dif_pos hrm, ih (r + 1) (by omega) (by omega)]

/-- C5: starting from a fresh task, `f` generic failures followed by a success
yield a successful chunk whose retry counter is `f`, with a back-off sleep of
`1000 ms × attempt` before attempt `1, …, f` — provided `f ≤ maxRetries`;
while `maxRetries + 1` failures abort the download with a wrapped error
identifying the chunk's offset. The two cases instantiated at
`f = maxRetries` and `f = maxRetries + 1` give the boundary behaviours of the
claim. -/
theorem C5_chunk_retry_budget (f maxRetries : Nat) (es : Nat → FetchError)
    (bytes : List Nat) (off lim : Nat) :
    (f ≤ maxRetries →
      downloadChunk maxRetries (failFirst f es bytes) ⟨off, lim, 0⟩ =
        .ok ⟨bytes, f, (List.range' 1 f).map (1000 * ·)⟩) ∧
    (maxRetries < f →
      downloadChunk maxRetries (failFirst f es bytes) ⟨off, lim, 0⟩ =
        .error ⟨off, maxRetries⟩) := by
  constructor
  · intro hf
    simpa using downloadChunk_failFirst_ok f maxRetries es bytes off lim 0
      (Nat.zero_le f) hf
  · intro hf
    exact downloadChunk_failFirst_err f maxRetries es bytes off lim 0
      (Nat.zero_le maxRetries) hf

/-- Witness for C5 with `maxRetries = 3`: exactly 3 failures then a success
still succeeds (with sleeps 1000, 2000, 3000 ms), and 4 failures abort with
the chunk's offset in the error. -/
theorem C5_chunk_retry_budget_witness :
    (3 ≤ 3 ∧
      downloadChunk 3 (failFirst 3 (fun _ => .generic) [7]) ⟨512, 512, 0⟩ =
        .ok ⟨[7], 3, [1000, 2000, 3000]⟩) ∧
    (3 < 4 ∧
      downloadChunk 3 (failFirst 4 (fun _ => .generic) [7]) ⟨512, 512, 0⟩ =
        .error ⟨512, 3⟩) := by
  constructor
  · refine ⟨le_refl 3, ?_⟩
    have h := (C5_chunk_retry_budget 3 3 (fun _ => .generic) [7] 512 512).1
      (le_refl 3)
    simpa [List.range'] using h
  · refine ⟨by omega, ?_⟩
    exact (C5_chunk_retry_budget 4 3 (fun _ => .generic) [7] 512 512).2
      (by omega)

/-- C1 counterexample: a chunk whose first fetch fails with
`FileMigrate(newDc = 4)` and whose second fetch succeeds ends with retry
counter `1`, not `0`, and only reaches the re-attempt after a 1000 ms
back-off sleep: DC migration consumes a unit of retry budget, contradicting
the claim that the retry count after the retry equals the count before the
failure. -/
theorem C1_fileMigrate_consumes_budget_counterexample :
    downloadChunk 3 (failFirst 1 (fun _ => .fileMigrate 4) [7]) ⟨0, 512, 0⟩ =
      .ok ⟨[7], 1, [1000]⟩ ∧ (1 : Nat) ≠ 0 := by
  constructor
  · have h := (C5_chunk_retry_budget 1 3 (fun _ => .fileMigrate 4) [7] 0 512).1
      (by omega)
    simpa [List.range'] using h
  · omega

/-- C1 amended: a chunk failing with `FileMigrate(newDc)` is handled by the
same generic retry branch as every other error — no sender is replaced (the
downloader has no migration branch and ignores the media's `dcId`), the
chunk's retry counter increments by one and the re-attempt happens only after
the `1000 ms × attempt` back-off, so DC migration consumes retry budget. -/
theorem C1_fileMigrate_generic_retry (e : FetchError) (bytes : List Nat)
    (off lim maxRetries : Nat) (h : 1 ≤ maxRetries) :
    downloadChunk maxRetries (failFirst 1 (fun _ => e) bytes) ⟨off, lim, 0⟩ =
      .ok ⟨bytes, 1, [1000]⟩ := by
  have hk := (C5_chunk_retry_budget 1 maxRetries (fun _ => e) bytes off lim).1 h
  simpa [List.range'] using hk

/-- Witness for the amended C1 at `FileMigrate(4)` with `maxRetries = 3`. -/
theorem C1_fileMigrate_generic_retry_witness :
    (1 : Nat) ≤ 3 ∧
    downloadChunk 3 (failFirst 1 (fun _ => .fileMigrate 4) [9, 9]) ⟨0, 512, 0⟩ =
      .ok ⟨[9, 9], 1, [1000]⟩ :=
  ⟨by omega, C1_fileMigrate_generic_retry (.fileMigrate 4) [9, 9] 0 512 3 (by omega)⟩

/-! ## C6 — extension policy of built file paths

Two places in the source decide whether a raw filename already carries an
extension:

1. The live download path (index.ts, `downloadMedia` inside
   `downloadChannelMedia`):

```
const hasExt = rawFileName && rawFileName.lastIndexOf('.') >
    Math.max(rawFileName.lastIndexOf('/'), rawFileName.lastIndexOf('\\'));
fullFileName = hasExt ? filename : `${filename}.${ext || defaultExtension}`;
```

2. `FolderStructureManager.buildFilePath` (src/folderStructureManager.ts),
   not called on the download path:

```
const hasExtension = options.rawFileName && options.rawFileName.includes('.');
const fullFilename = hasExtension ? filename : `${filename}.${extension}`;
```

Neither check excludes a dot at position 0 (`.hidden`), and the second does
not even require the dot to come after the last path separator.

Strings are embedded as `List Char`; `String.prototype.lastIndexOf` (a JS
builtin) is modelled as the greatest index holding the character, or `-1`.
-/

/-- JS `s.lastIndexOf(c)`: the greatest index of `c` in `s`, or `-1`. -/
def jsLastIndexOf : List Char → Char → Int
  | [], _ => -1
  | x :: xs, c =>
    if jsLastIndexOf xs c < 0 then (if x = c then 0 else -1)
    else jsLastIndexOf xs c + 1

theorem jsLastIndexOf_ge (s : List Char) (c : Char) : -1 ≤ jsLastIndexOf s c := by
  induction s with
  | nil => simp [jsLastIndexOf]
  | cons x xs ih =>
    rw [jsLastIndexOf]
    by_cases hr : jsLastIndexOf xs c < 0
    · rw [if_pos hr]; by_cases hx : x = c <;> simp [hx]
    · rw [if_neg hr]; omega

theorem le_jsLastIndexOf {s : List Char} {c : Char} (j : Fin s.length)
    (hc : s[j] = c) : (j : Int) ≤ jsLastIndexOf s c := by
  induction s with
  | nil => exact absurd j.isLt (by simp)
  | cons x xs ih =>
    rw [jsLastIndexOf]
    match j with
    | ⟨0, _⟩ =>
      by_cases hr : jsLastIndexOf xs c < 0
      · rw [if_pos hr]
        simp only [Fin.getElem_fin, List.getElem_cons_zero] at hc
        simp [hc]
      · rw [if_neg hr]
        simp only [Fin.val_mk, Int.ofNat_zero]
        omega
    | ⟨j + 1, hj⟩ =>
      simp only [Fin.getElem_fin, List.getElem_cons_succ] at hc
      have hle := ih ⟨j, by simp only [List.length_cons] at hj; omega⟩
        (by simpa using hc)
      simp only [Fin.val_mk] at hle ⊢
      by_cases hr : jsLastIndexOf xs c < 0
      · omega
      · rw [if_neg hr]
        push_cast
        omega

theorem jsLastIndexOf_get {s : List Char} {c : Char}
    (h : 0 ≤ jsLastIndexOf s c) :
    ∃ j : Fin s.length, (j : Int) = jsLastIndexOf s c ∧ s[j] = c := by
  induction s with
  | nil => simp [jsLastIndexOf] at h
  | cons x xs ih =>
    rw [jsLastIndexOf] at h ⊢
    by_cases hr : jsLastIndexOf xs c < 0
    · rw [if_pos hr] at h ⊢
      by_cases hx : x = c
      · exact ⟨⟨0, by simp⟩, by simp [hx, jsLastIndexOf, hr]⟩
      · simp [hx] at h
    · obtain ⟨⟨j, hj⟩, hje, hjc⟩ := ih (by omega)
      rw [if_neg hr]
      refine ⟨⟨j + 1, by simp only [List.length_cons]; omega⟩, ?_,
        by simpa using hjc⟩
      simp only [Fin.val_mk] at hje ⊢
      push_cast at hje ⊢
      omega

/-- The `hasExt` test on the live download path (index.ts line
`const hasExt = rawFileName && rawFileName.lastIndexOf('.') > Math.max(…)`) -/
def downloadMediaHasExt (rawFileName : List Char) : Bool :=
  !rawFileName.isEmpty &&
    decide (max (jsLastIndexOf rawFileName '/') (jsLastIndexOf rawFileName '\\')
      < jsLastIndexOf rawFileName '.')

/-- The full filename computed on the live download path:
`hasExt ? filename : `${filename}.${ext || defaultExtension}``. -/
def downloadMediaFullFileName (filename rawFileName ext dflt : List Char) :
    List Char :=
  if downloadMediaHasExt rawFileName then filename
  else filename ++ '.' :: (if ext.isEmpty then dflt else ext)

/-- `FolderStructureManager.buildFilename`: base is the message id; when
`groupMessage` is off a non-empty `groupedId` is prepended; a non-empty
`rawFileName` is appended. -/
def buildFilename (messageId groupedId rawFileName : List Char)
    (groupMessage : Bool) : List Char :=
  let filename := messageId
  let filename :=
    if !groupMessage && !groupedId.isEmpty then groupedId ++ '_' :: filename
    else filename
  if !rawFileName.isEmpty then filename ++ '_' :: rawFileName else filename

/-- The `hasExtension` test of `FolderStructureManager.buildFilePath`
(src/folderStructureManager.ts): `rawFileName && rawFileName.includes('.')`. -/
def buildFilePathHasExtension (rawFileName : List Char) : Bool :=
  !rawFileName.isEmpty && rawFileName.contains '.'

/-- The full filename computed by `FolderStructureManager.buildFilePath`:
`hasExtension ? filename : `${filename}.${extension}``. -/
def buildFilePathFullFilename (filename rawFileName extension : List Char) :
    List Char :=
  if buildFilePathHasExtension rawFileName then filename
  else filename ++ '.' :: extension

/-- The extension test exactly as the specification words it: the raw
filename "contains a dot that comes after the last path separator and is not
the first character". -/
def specHasExt (raw : List Char) : Prop :=
  ∃ i : Fin raw.length, raw[i] = '.' ∧
    max (jsLastIndexOf raw '/') (jsLastIndexOf raw '\\') < (i : Int) ∧
    (i : Nat) ≠ 0

instance (raw : List Char) : Decidable (specHasExt raw) := by
  unfold specHasExt; infer_instance

/-- The claimed filename policy, written from the specification's words. -/
def specFullFileName (filename raw ext dflt : List Char) : List Char :=
  if specHasExt raw then filename
  else filename ++ '.' :: (if ext.isEmpty then dflt else ext)

/-- C6 counterexample: for `rawFileName = ".hidden"` (photo defaults, no mime
hit, message id 123) the claimed policy appends `.jpg` because the only dot
is the first character, but the code's `hasExt` check has no
first-character condition and keeps the name as-is — on the live download
path and in `buildFilePath` alike. -/
theorem C6_extension_policy_counterexample :
    downloadMediaFullFileName ("123_.hidden".toList) (".hidden".toList) []
        ("jpg".toList) = "123_.hidden".toList ∧
    specFullFileName ("123_.hidden".toList) (".hidden".toList) []
        ("jpg".toList) = "123_.hidden.jpg".toList ∧
    downloadMediaFullFileName ("123_.hidden".toList) (".hidden".toList) []
        ("jpg".toList) ≠
      specFullFileName ("123_.hidden".toList) (".hidden".toList) []
        ("jpg".toList) ∧
    buildFilePathFullFilename ("123_.hidden".toList) (".hidden".toList)
        ("jpg".toList) = "123_.hidden".toList := by
  refine ⟨by decide, by decide, by decide, by decide⟩

/-- The amended `hasExt` condition: the raw filename contains a dot strictly
after the last path separator (a leading dot qualifies). -/
def amendedHasExt (raw : List Char) : Prop :=
  ∃ i : Fin raw.length, raw[i] = '.' ∧
    max (jsLastIndexOf raw '/') (jsLastIndexOf raw '\\') < (i : Int)

instance (raw : List Char) : Decidable (amendedHasExt raw) := by
  unfold amendedHasExt; infer_instance

theorem downloadMediaHasExt_iff (raw : List Char) :
    downloadMediaHasExt raw = true ↔ amendedHasExt raw := by
  unfold downloadMediaHasExt amendedHasExt
  constructor
  · intro h
    simp only [Bool.and_eq_true, decide_eq_true_eq] at h
    obtain ⟨-, hlt⟩ := h
    have hs := jsLastIndexOf_ge raw '/'
    have hb := jsLastIndexOf_ge raw '\\'
    have h0 : 0 ≤ jsLastIndexOf raw '.' := by omega
    obtain ⟨j, hje, hjc⟩ := jsLastIndexOf_get h0
    exact ⟨j, hjc, by omega⟩
  · rintro ⟨i, hic, hisep⟩
    have hle := le_jsLastIndexOf i hic
    have hne : ¬ raw.isEmpty := by
      cases raw with
      | nil => exact absurd i.isLt (by simp)
      | cons x xs => simp
    simp only [Bool.and_eq_true, decide_eq_true_eq, Bool.not_eq_true']
    exact ⟨by simpa using hne, by omega⟩

/-- C6 amended: on the live download path the filename is used as-is exactly
when the raw filename contains a dot strictly after the last path separator —
a leading dot qualifies, so `.hidden`-style names keep no appended extension;
otherwise `"." + ext` is appended where `ext` is the mime-table lookup or, if
that is empty, the per-kind default (`jpg`/`mp4`/`mp3`/`dat` at the four call
sites). `FolderStructureManager.buildFilePath` (not used on the download
path) is laxer still: any dot anywhere suppresses the appended extension. -/
theorem C6_extension_policy_amended (filename raw ext dflt : List Char) :
    downloadMediaFullFileName filename raw ext dflt =
      (if amendedHasExt raw then filename
       else filename ++ '.' :: (if ext.isEmpty then dflt else ext)) ∧
    buildFilePathFullFilename filename raw dflt =
      (if raw ≠ [] ∧ '.' ∈ raw then filename else filename ++ '.' :: dflt) := by
  constructor
  · unfold downloadMediaFullFileName
    by_cases h : amendedHasExt raw
    · rw [if_pos ((downloadMediaHasExt_iff raw).mpr h), if_pos h]
    · rw [if_neg (fun hc => h ((downloadMediaHasExt_iff raw).mp hc)), if_neg h]
  · unfold buildFilePathFullFilename buildFilePathHasExtension
    by_cases h : raw ≠ [] ∧ '.' ∈ raw
    · have hb : (!raw.isEmpty && raw.contains '.') = true := by
        obtain ⟨h1, h2⟩ := h
        simp [List.isEmpty_iff, h1, List.contains, h2]
      rw [hb, if_pos rfl, if_pos h]
    · have hb : ¬ ((!raw.isEmpty && raw.contains '.') = true) := by
        intro hc
        simp only [Bool.and_eq_true, Bool.not_eq_true'] at hc
        refine h ⟨?_, by simpa [List.contains] using hc.2⟩
        intro hnil
        rw [hnil] at hc
        simp at hc
      rw [if_neg hb, if_neg h]

/-! ## C7 — `shouldDownload` size-range filter

Source (index.ts):

```
function shouldDownload(channelId, media, type) {
    let sizeNum;
    ... // largest photo size / document size; left undefined if unknown
    if (sizeNum == null) return true;
    const limit1 = tonfig.get(['filter', type, channelId], '');
    const limit2 = tonfig.get(['filter', 'default', type], '');
    const limit = `${limit1 || limit2}`.split('-');
    if (limit.length == 2) {
        const num1 = Number(limit[0]);
        const num2 = Number(limit[1]);
        if (!isNaN(num1) && !isNaN(num2)) {
            const min = Math.min(num1, num2);
            const max = Math.max(num1, num2);
            if (sizeNum < min || sizeNum > max) return false;
        }
    }
    return true;
}
```

The size extracted from the media is passed as an `Option Int` (`none` when
the code leaves `sizeNum` undefined), JS `Number(…)` is abstracted as an
oracle `jsNumber : List Char → Option Int` (`none` = `NaN`), and the JS
builtin `String.prototype.split` with a one-character separator is modelled
by `jsSplit`.
-/

/-- JS `s.split(sep)` for a single-character separator. -/
def jsSplit (sep : Char) : List Char → List (List Char)
  | [] => [[]]
  | c :: rest =>
    match jsSplit sep rest with
    | [] => if c = sep then [[], []] else [[c]]
    | g :: gs => if c = sep then [] :: g :: gs else (c :: g) :: gs

/-- The body of the `limit.length == 2` check of `shouldDownload`, applied to
the split range string. -/
def checkRange (jsNumber : List Char → Option Int) (size : Int) :
    List (List Char) → Bool
  | [s1, s2] =>
    match jsNumber s1, jsNumber s2 with
    | some num1, some num2 => !(size < min num1 num2 || size > max num1 num2)
    | _, _ => true
  | [] => true
  | [_] => true
  | _ :: _ :: _ :: _ => true

/-- Shallow embedding of `shouldDownload`, taking the two configured range
strings (`limit1` = per-channel override, `limit2` = global default, both
defaulting to `""`). -/
def shouldDownload (jsNumber : List Char → Option Int)
    (limit1 limit2 : List Char) (sizeNum : Option Int) : Bool :=
  match sizeNum with
  | none => true
  | some size =>
    checkRange jsNumber size
      (jsSplit '-' (if limit1 = [] then limit2 else limit1))

/-- C7: an undeterminable size is accepted; otherwise the range string is the
per-channel override when set, else the global default, and when it splits
into exactly two parts that both parse, acceptance is `min ≤ size ≤ max`
(inclusive); when it does not split into two parts, or either bound fails to
parse, the message is accepted. -/
theorem C7_shouldDownload_size_filter (jsNumber : List Char → Option Int)
    (limit1 limit2 : List Char) (size lo hi : Int) (s1 s2 : List Char) :
    shouldDownload jsNumber limit1 limit2 none = true ∧
    (jsSplit '-' (if limit1 = [] then limit2 else limit1) = [s1, s2] →
      jsNumber s1 = some lo → jsNumber s2 = some hi →
      (shouldDownload jsNumber limit1 limit2 (some size) = true ↔
        min lo hi ≤ size ∧ size ≤ max lo hi)) ∧
    ((∀ a b, jsSplit '-' (if limit1 = [] then limit2 else limit1) ≠ [a, b]) →
      shouldDownload jsNumber limit1 limit2 (some size) = true) ∧
    (jsSplit '-' (if limit1 = [] then limit2 else limit1) = [s1, s2] →
      (jsNumber s1 = none ∨ jsNumber s2 = none) →
      shouldDownload jsNumber limit1 limit2 (some size) = true) := by
  refine ⟨rfl, ?_, ?_, ?_⟩
  · intro hsplit h1 h2
    have hred : shouldDownload jsNumber limit1 limit2 (some size) =
        checkRange jsNumber size
          (jsSplit '-' (if limit1 = [] then limit2 else limit1)) := rfl
    rw [hred, hsplit, checkRange, h1, h2]
    constructor
    · intro h
      simp only [Bool.not_eq_true', Bool.or_eq_false_iff,
        decide_eq_false_iff_not, not_lt] at h
      omega
    · intro h
      simp only [Bool.not_eq_true', Bool.or_eq_false_iff,
        decide_eq_false_iff_not, not_lt]
      omega
  · intro hno
    have hred : shouldDownload jsNumber limit1 limit2 (some size) =
        checkRange jsNumber size
          (jsSplit '-' (if limit1 = [] then limit2 else limit1)) := rfl
    rw [hred]
    match hsplit : jsSplit '-' (if limit1 = [] then limit2 else limit1) with
    | [] => rfl
    | [a] => rfl
    | [a, b] => exact absurd hsplit (hno a b)
    | a :: b :: c :: rest => rfl
  · intro hsplit hfail
    have hred : shouldDownload jsNumber limit1 limit2 (some size) =
        checkRange jsNumber size
          (jsSplit '-' (if limit1 = [] then limit2 else limit1)) := rfl
    rw [hred, hsplit, checkRange]
    rcases hfail with h | h
    · rw [h]
    · rw [h]
      cases jsNumber s1 <;> rfl

/-- Witness for C7: global default `"100-10"` (bounds reversed on purpose),
no per-channel override, size 50 — accepted since `10 ≤ 50 ≤ 100`; and a
malformed default `"x-y"` under a parser rejecting both is also accepted. -/
theorem C7_shouldDownload_size_filter_witness :
    shouldDownload
        (fun s => if s = "100".toList then some 100 else
          if s = "10".toList then some 10 else none)
        [] ("100-10".toList) none = true ∧
    (jsSplit '-' ("100-10".toList) = ["100".toList, "10".toList] ∧
      shouldDownload
        (fun s => if s = "100".toList then some 100 else
          if s = "10".toList then some 10 else none)
        [] ("100-10".toList) (some 50) = true ∧
      (min (100 : Int) 10 ≤ 50 ∧ (50 : Int) ≤ max 100 10)) ∧
    shouldDownload (fun _ => none) [] ("x-y".toList) (some 50) = true := by
  refine ⟨rfl, ⟨by decide, ?_, by decide⟩, ?_⟩
  · exact ((C7_shouldDownload_size_filter
      (fun s => if s = "100".toList then some 100 else
        if s = "10".toList then some 10 else none)
      [] ("100-10".toList) 50 100 10 ("100".toList) ("10".toList)).2.1
      (by decide) (by decide) (by decide)).mpr (by decide)
  · exact (C7_shouldDownload_size_filter (fun _ => none) [] ("x-y".toList)
      50 0 0 ("x".toList) ("y".toList)).2.2.2 (by decide) (Or.inl rfl)

/-! ## C2 — dispatch worker checkpoint discipline

Source (index.ts, `startDownload`):

```
execQueue = queue(async function(task, callback) {
    ... // pick channelInfo (fair, non-downloading, non-empty queue)
    channelInfo.downloading = true;
    const channelId = channelInfo.channelId;
    const message = channelInfo.messages[0];
    await downloadChannelMedia(...).then(async () => {
        channelInfo.messages.shift();
        if (!message['comment']) {
            tonfig.set(['spider', 'lastIds', channelId], message.id);
            await tonfig.save();
        }
    }, () => {
        // failure: nothing — the queue retries later
    }).finally(() => {
        channelInfo.downloading = false;
        channelInfo.lastDownloadTime = Date.now();
        globalEventBus.emitEvent('download:complete');
        callback();
    });
}, concurrency);
```

`downloadChannelMedia` awaits the Downloader once per allowed media kind
present on the message, sequentially; the first rejection aborts the chain,
so its promise resolves iff every started invocation succeeded.
-/

/-- The message fields the dispatch worker reads. -/
structure MsgView where
  id : Nat
  isComment : Bool
deriving DecidableEq, Repr

/-- The configuration slice the worker mutates: the per-channel `lastIds`
checkpoints and a count of `tonfig.save()` persistence calls. -/
structure SpiderConfig where
  lastIds : String → Nat
  saves : Nat

/-- Per-channel scheduler state touched by the worker. -/
structure ChannelQueueState where
  messages : List MsgView
  downloading : Bool
  lastDownloadTime : Nat
deriving DecidableEq, Repr

/-- Sequential media-kind invocations of `downloadChannelMedia`: the first
rejection aborts the chain. -/
def runInvocations : List (Except Unit Unit) → Except Unit Unit
  | [] => .ok ()
  | .ok () :: rest => runInvocations rest
  | .error () :: _ => .error ()

/-- One `execQueue` worker dispatch for the head message of a channel, given
the aggregate result of `downloadChannelMedia`: on success the message is
popped and, unless it is a comment, `lastId` is set to its id and the config
is saved; on failure the config and queue are untouched; either way the
channel is released and its `lastDownloadTime` updated. -/
def execWorkerDispatch (cfg : SpiderConfig) (ch : ChannelQueueState)
    (channelId : String) (message : MsgView) (result : Except Unit Unit)
    (now : Nat) : SpiderConfig × ChannelQueueState :=
  match result with
  | .ok () =>
    let ch2 : ChannelQueueState :=
      { ch with messages := ch.messages.tail }
    let cfg2 : SpiderConfig :=
      if !message.isComment then
        { lastIds := fun c => if c = channelId then message.id else cfg.lastIds c,
          saves := cfg.saves + 1 }
      else cfg
    (cfg2, { ch2 with downloading := false, lastDownloadTime := now })
  | .error () =>
    (cfg, { ch with downloading := false, lastDownloadTime := now })

theorem runInvocations_ok {l : List (Except Unit Unit)}
    (h : ∀ r ∈ l, r = .ok ()) : runInvocations l = .ok () := by
  induction l with
  | nil => rfl
  | cons x rest ih =>
    have hx := h x (List.mem_cons_self x rest)
    rw [hx, runInvocations]
    exact ih fun r hr => h r (List.mem_cons_of_mem x hr)

theorem runInvocations_err {l : List (Except Unit Unit)}
    (h : ∃ r ∈ l, r = .error ()) : runInvocations l = .error () := by
  induction l with
  | nil => simp at h
  | cons x rest ih =>
    match x with
    | .error () => rfl
    | .ok () =>
      rw [runInvocations]
      refine ih ?_
      obtain ⟨r, hr, hre⟩ := h
      rcases List.mem_cons.mp hr with rfl | hmem
      · simp at hre
      · exact ⟨r, hmem, hre⟩

/-- C2: if every Downloader invocation for message `M` succeeds and `M` is
not a comment, the dispatch sets `lastId(c) = M.id` and persists the config
(one more save); if any invocation fails, every channel's `lastId` and the
save count after the dispatch equal their values before. -/
theorem C2_dispatch_checkpoint (cfg : SpiderConfig) (ch : ChannelQueueState)
    (channelId : String) (message : MsgView)
    (invocations : List (Except Unit Unit)) (now : Nat) :
    ((∀ r ∈ invocations, r = .ok ()) → message.isComment = false →
      (execWorkerDispatch cfg ch channelId message
          (runInvocations invocations) now).1.lastIds channelId = message.id ∧
      (execWorkerDispatch cfg ch channelId message
          (runInvocations invocations) now).1.saves = cfg.saves + 1) ∧
    ((∃ r ∈ invocations, r = .error ()) →
      (execWorkerDispatch cfg ch channelId message
          (runInvocations invocations) now).1.lastIds = cfg.lastIds ∧
      (execWorkerDispatch cfg ch channelId message
          (runInvocations invocations) now).1.saves = cfg.saves) := by
  constructor
  · intro hok hnc
    rw [runInvocations_ok hok]
    unfold execWorkerDispatch
    simp [hnc]
  · intro herr
    rw [runInvocations_err herr]
    exact ⟨rfl, rfl⟩

/-- Witness for C2: a non-comment message 200 whose single (photo) invocation
succeeds advances the checkpoint to 200 and saves; the same message with a
failing invocation leaves checkpoint and save count unchanged. -/
theorem C2_dispatch_checkpoint_witness :
    ((∀ r ∈ ([.ok ()] : List (Except Unit Unit)), r = .ok ()) ∧
      (execWorkerDispatch ⟨fun _ => 0, 0⟩ ⟨[⟨200, false⟩], true, 0⟩ "c1"
          ⟨200, false⟩ (runInvocations [.ok ()]) 5).1.lastIds "c1" = 200 ∧
      (execWorkerDispatch ⟨fun _ => 0, 0⟩ ⟨[⟨200, false⟩], true, 0⟩ "c1"
          ⟨200, false⟩ (runInvocations [.ok ()]) 5).1.saves = 1) ∧
    ((∃ r ∈ ([.error ()] : List (Except Unit Unit)), r = .error ()) ∧
      (execWorkerDispatch ⟨fun _ => 0, 0⟩ ⟨[⟨200, false⟩], true, 0⟩ "c1"
          ⟨200, false⟩ (runInvocations [.error ()]) 5).1.lastIds = (fun _ => 0) ∧
      (execWorkerDispatch ⟨fun _ => 0, 0⟩ ⟨[⟨200, false⟩], true, 0⟩ "c1"
          ⟨200, false⟩ (runInvocations [.error ()]) 5).1.saves = 0) := by
  constructor
  · have h := (C2_dispatch_checkpoint ⟨fun _ => 0, 0⟩ ⟨[⟨200, false⟩], true, 0⟩
      "c1" ⟨200, false⟩ [.ok ()] 5).1 (by intro r hr; simpa using hr) rfl
    exact ⟨by intro r hr; simpa using hr, h.1, h.2⟩
  · have h := (C2_dispatch_checkpoint ⟨fun _ => 0, 0⟩ ⟨[⟨200, false⟩], true, 0⟩
      "c1" ⟨200, false⟩ [.error ()] 5).2 ⟨.error (), by simp⟩
    exact ⟨⟨.error (), by simp⟩, h.1, h.2⟩

/-! ## C8 — fresh channel, default strategy

Source (index.ts). The `newStrategy === -1` branch of `getChannelMessages`
(taken when the persisted `lastId` is 0):

```
} else if (newStrategy === -1) {
    const _messages = await client.invoke(new Api.messages.GetHistory({
        peer: channelId, offsetId: 1, addOffset: -1, limit: 1 }));
    if (_messages.messages.length) {
        lastId = _messages.messages[0].id;          // newest first
        messages.push(..._messages.messages.map(...));
    }
    break;   // (single page)
    // ...
    messages.reverse();
}
return { lastId: lastId || 0, messages };
```

and the per-channel body of `mediaSpider`:

```
const lastId = tonfig.get(['spider', 'lastIds', channelId], 0);
const messages = await getChannelMessages(client, channelId, lastId, undefined, -1);
if (!lastId && !messages.messages.length) {
    const topId = messages.messages.length ? messages.messages[0].id : messages.lastId;
    tonfig.set(['spider', 'lastIds', channelId], topId);
    await tonfig.save();
}
for (const message of messages.messages) {
    waitQueue[channelId].messages.push(message);
    execQueue.push();
    if (message.replies?.replies && message.replies?.channelId) {
        const result = await client.invoke(new Api.messages.GetReplies({...}));
        ... // comments appended after the parent, marked comment = true
    }
}
```

followed by the `execQueue` worker draining the queue (see C2), where
`downloadChannelMedia` returns without writing anything for a message that is
a `MessageService` or carries no media. The Telegram server is abstracted by
a `getHistory` oracle; the model covers the fresh-channel path
(`lastId = 0`, default strategy `-1`).
-/

/-- The message fields the ingestor and `downloadChannelMedia` read. -/
structure IngMsg where
  id : Nat
  isService : Bool
  photo : Bool
  video : Bool
  audio : Bool
  file : Bool
  repliesCount : Nat
deriving DecidableEq, Repr, Inhabited

/-- The four media kinds. -/
inductive MediaKind where
  | photo
  | video
  | audio
  | file
deriving DecidableEq, Repr

/-- A `messages.GetHistory` request as issued by `getChannelMessages`. -/
structure GetHistoryReq where
  offsetId : Int
  addOffset : Int
  limit : Nat
deriving DecidableEq, Repr

/-- The media kinds `downloadChannelMedia` will invoke the Downloader for:
those present on the message and listed in the channel's allowed set, in the
fixed order photo, video, audio, file. -/
def kindsToDownload (m : IngMsg) (medias : List MediaKind) : List MediaKind :=
  (if m.photo ∧ MediaKind.photo ∈ medias then [MediaKind.photo] else []) ++
  (if m.video ∧ MediaKind.video ∈ medias then [MediaKind.video] else []) ++
  (if m.audio ∧ MediaKind.audio ∈ medias then [MediaKind.audio] else []) ++
  (if m.file ∧ MediaKind.file ∈ medias then [MediaKind.file] else [])

/-- Sequentially run the per-kind `downloadMedia` calls; `runKind` yields the
written path (`none` when the size filter skipped the kind), and the first
rejection aborts the chain. -/
def runKinds (runKind : MediaKind → Except Unit (Option String)) :
    List MediaKind → Except Unit (List String)
  | [] => .ok []
  | k :: ks =>
    match runKind k with
    | .error e => .error e
    | .ok w =>
      match runKinds runKind ks with
      | .error e => .error e
      | .ok ws => .ok (match w with | none => ws | some p => p :: ws)

/-- `downloadChannelMedia` for one message: a `MessageService` returns at once
having written nothing; otherwise the allowed media kinds present on the
message are downloaded sequentially. -/
def runDownloadChannelMedia (m : IngMsg) (medias : List MediaKind)
    (runKind : MediaKind → Except Unit (Option String)) :
    Except Unit (List String) :=
  if m.isService then .ok [] else runKinds runKind (kindsToDownload m medias)

/-- Drain the per-channel queue through the `execQueue` worker: each entry is
`(message, isComment)`; a successful `downloadChannelMedia` advances the
checkpoint via `execWorkerDispatch` (only for non-comments), a failure stops
the drain with the message still queued. -/
def drainQueue (runKind : MediaKind → Except Unit (Option String))
    (medias : List MediaKind) (channelId : String) :
    List (IngMsg × Bool) → SpiderConfig → SpiderConfig × List String
  | [], cfg => (cfg, [])
  | (m, isC) :: rest, cfg =>
    match runDownloadChannelMedia m medias runKind with
    | .error _ => (cfg, [])
    | .ok files =>
      let cfg2 := (execWorkerDispatch cfg ⟨[], true, 0⟩ channelId ⟨m.id, isC⟩
        (.ok ()) 0).1
      let r := drainQueue runKind medias channelId rest cfg2
      (r.1, files ++ r.2)

/-- Result of one fresh-channel ingestion tick followed by a queue drain. -/
structure TickResult where
  requests : List GetHistoryReq
  cfg : SpiderConfig
  files : List String

/-- One `mediaSpider` tick on a channel whose persisted `lastId` is 0 under
the default new-channel strategy `-1`, followed by the `execQueue` drain of
what it enqueued: fetch exactly one page with `offsetId = 1, addOffset = -1,
limit = 1`; persist the anchor directly only when the page came back empty
(the inverted `!lastId && !messages.length` check); enqueue the fetched
messages with their comment threads after the parent; then drain. -/
def mediaSpiderTickFresh (getHistory : GetHistoryReq → List IngMsg)
    (getReplies : Nat → List IngMsg)
    (runKind : MediaKind → Except Unit (Option String))
    (cfg : SpiderConfig) (channelId : String) (medias : List MediaKind) :
    TickResult :=
  let req : GetHistoryReq := ⟨1, -1, 1⟩
  let fetched := getHistory req
  let anchor := match fetched with
    | [] => 0
    | mTop :: _ => mTop.id
  let msgs := fetched.reverse
  let cfg1 :=
    if cfg.lastIds channelId = 0 ∧ msgs = [] then
      { lastIds := fun c => if c = channelId then anchor else cfg.lastIds c,
        saves := cfg.saves + 1 }
    else cfg
  let queue := msgs.flatMap fun m =>
    (m, false) ::
      (if 0 < m.repliesCount then
        (getReplies m.id).reverse.map (fun c => (c, true))
      else [])
  let r := drainQueue runKind medias channelId queue cfg1
  ⟨[req], r.1, r.2⟩

/-- C8: on a fresh channel (persisted `lastId = 0`, default strategy) the
ingestor issues exactly the single request `offsetId = 1, addOffset = -1,
limit = 1` — the single newest message; and when the (non-empty) history's
newest message is an ordinary message with no media and no replies, one tick
plus its drain leaves the persisted `lastId` equal to the newest message's
id (with one save) and writes no files. -/
theorem C8_fresh_channel_anchor (getHistory : GetHistoryReq → List IngMsg)
    (getReplies : Nat → List IngMsg)
    (runKind : MediaKind → Except Unit (Option String))
    (cfg : SpiderConfig) (channelId : String) (medias : List MediaKind)
    (history : List IngMsg)
    (hfresh : cfg.lastIds channelId = 0)
    (hne : history ≠ [])
    (hfetch : getHistory ⟨1, -1, 1⟩ = history.take 1)
    (hplain : ∀ m ∈ history, m.isService = false ∧ m.photo = false ∧
      m.video = false ∧ m.audio = false ∧ m.file = false ∧
      m.repliesCount = 0) :
    (mediaSpiderTickFresh getHistory getReplies runKind cfg channelId
        medias).requests = [⟨1, -1, 1⟩] ∧
    (mediaSpiderTickFresh getHistory getReplies runKind cfg channelId
        medias).cfg.lastIds channelId = history.headI.id ∧
    (mediaSpiderTickFresh getHistory getReplies runKind cfg channelId
        medias).cfg.saves = cfg.saves + 1 ∧
    (mediaSpiderTickFresh getHistory getReplies runKind cfg channelId
        medias).files = [] := by
  match history, hne with
  | m :: rest, _ =>
    have hm := hplain m (List.mem_cons_self m rest)
    obtain ⟨hsvc, hph, hvd, had, hfl, hrp⟩ := hm
    have htake : getHistory ⟨1, -1, 1⟩ = [m] := by rw [hfetch]; rfl
    refine ⟨rfl, ?_, ?_, ?_⟩ <;>
      simp [mediaSpiderTickFresh, htake, hrp, hsvc, hph, hvd, had, hfl,
        hfresh, drainQueue, runDownloadChannelMedia, kindsToDownload,
        runKinds, execWorkerDispatch, List.headI]

/-- Witness for C8 (the spec's scenario 1 shape): history ids 109, 108, 107
(newest first), none with media; after one tick `lastId = 109`, one save,
no files. -/
theorem C8_fresh_channel_anchor_witness :
    ((⟨fun _ => 0, 0⟩ : SpiderConfig).lastIds "c1" = 0) ∧
    (([⟨109, false, false, false, false, false, 0⟩,
       ⟨108, false, false, false, false, false, 0⟩,
       ⟨107, false, false, false, false, false, 0⟩] : List IngMsg) ≠ []) ∧
    (mediaSpiderTickFresh
        (fun req => if req = ⟨1, -1, 1⟩ then
          [⟨109, false, false, false, false, false, 0⟩] else [])
        (fun _ => []) (fun _ => .ok none) ⟨fun _ => 0, 0⟩ "c1"
        [.photo, .video, .audio, .file]).cfg.lastIds "c1" = 109 ∧
    (mediaSpiderTickFresh
        (fun req => if req = ⟨1, -1, 1⟩ then
          [⟨109, false, false, false, false, false, 0⟩] else [])
        (fun _ => []) (fun _ => .ok none) ⟨fun _ => 0, 0⟩ "c1"
        [.photo, .video, .audio, .file]).files = [] := by
  have h := C8_fresh_channel_anchor
    (fun req => if req = ⟨1, -1, 1⟩ then
      [⟨109, false, false, false, false, false, 0⟩] else [])
    (fun _ => []) (fun _ => .ok none) ⟨fun _ => 0, 0⟩ "c1"
    [.photo, .video, .audio, .file]
    [⟨109, false, false, false, false, false, 0⟩,
     ⟨108, false, false, false, false, false, 0⟩,
     ⟨107, false, false, false, false, false, 0⟩]
    rfl (by decide) (by decide) (by decide)
  exact ⟨rfl, by decide, h.2.1, h.2.2.2⟩

/-! ## C3 / C4 / C10 — `downloadFileToStream` ordered writing, back-pressure
and drain handling

Source (src/downloader.ts):

```
const chunks = [];
for (let offset = 0; offset < totalSize; offset += chunkSize) {
    const limit = Math.min(chunkSize, totalSize - offset);
    chunks.push({ offset, limit, retries: 0 });
}
const buffers = {};
let downloadedBytes = 0, writtenBytes = 0, nextWriteOffset = 0;
let activeDownloads = 0;
const maxConcurrent = threads;

const waitForDrain = () => {
    if (writeStream.writableHighWaterMark &&
        writtenBytes - downloadedBytes > writeStream.writableHighWaterMark) {
        return new Promise(resolve => writeStream.once('drain', resolve));
    }
    return Promise.resolve();
};

const writeOrderedChunks = async () => {
    while (buffers[nextWriteOffset] && !writeError) {
        const buffer = buffers[nextWriteOffset];
        const canContinue = writeStream.write(buffer);
        writtenBytes += buffer.length;
        delete buffers[nextWriteOffset];
        nextWriteOffset += chunkSize;
        if (!canContinue) await waitForDrain();
    }
};

// inside downloadChunk, on success:
//     buffers[task.offset] = result.bytes;
//     downloadedBytes += result.bytes.length;
//     updateProgress();
//     await writeOrderedChunks();

for (const chunk of chunks) {
    if (writeError) break;
    while ((activeDownloads >= maxConcurrent ||
            Object.keys(buffers).length >= maxConcurrent * 2) && !writeError) {
        await this.sleep(50);
        await writeOrderedChunks();
    }
    downloadPromises.push(downloadChunk(chunk));
}
```

The download is modelled as a transition system over an explicit state:
chunks are launched in partition order only when the gate
`activeDownloads < threads && |buffers| < 2 * threads` holds, and a chunk
completion atomically deposits the fetched bytes keyed by offset, counts
them as downloaded, and runs `writeOrderedChunks` (which drains every
consecutive buffered chunk at the write cursor). Completions may happen in
any order — the scheduler is adversarial. Fetch failures are not modelled
here (a failure only touches the retry counter, modelled in
`downloadChunk` above, and aborts the download on exhaustion); the traces
below are the executions in which every fetch succeeds, which are exactly
the successful downloads C3 speaks about and include the worst cases for
the C4 / C10 bounds among failure-free runs.

The source file is a byte function `source : Nat → Nat`; a successful fetch
of a chunk returns exactly its byte range.
-/

/-- The number of chunks the partition loop creates: `⌈totalSize / chunkSize⌉`. -/
def numChunks (totalSize chunkSize : Nat) : Nat :=
  (totalSize + chunkSize - 1) / chunkSize

/-- The chunk the partition loop pushes at index `i`:
offset `i * chunkSize`, limit `min(chunkSize, totalSize - offset)`. -/
def chunkAt (totalSize chunkSize i : Nat) : ChunkTask :=
  ⟨chunkSize * i, min chunkSize (totalSize - chunkSize * i), 0⟩

/-- The partition loop of `downloadFileToStream`, from a given offset
(`0 < chunkSize` guards the loop that would otherwise not terminate). -/
def chunkTasksAux (totalSize chunkSize offset : Nat) : List ChunkTask :=
  if _h : 0 < chunkSize ∧ offset < totalSize then
    ⟨offset, min chunkSize (totalSize - offset), 0⟩ ::
      chunkTasksAux totalSize chunkSize (offset + chunkSize)
  else []
termination_by totalSize - offset
decreasing_by omega

/-- The chunk list of `downloadFileToStream`. -/
def chunkTasks (totalSize chunkSize : Nat) : List ChunkTask :=
  chunkTasksAux totalSize chunkSize 0

/-- The chunk list in indexed form. -/
def chunkList (totalSize chunkSize : Nat) : List ChunkTask :=
  (List.range (numChunks totalSize chunkSize)).map (chunkAt totalSize chunkSize)

/-- The bytes of a chunk as served by a successful fetch. -/
def chunkBytes (source : Nat → Nat) (c : ChunkTask) : List Nat :=
  (List.range c.limit).map fun j => source (c.offset + j)

theorem le_mul_numChunks {S cs : Nat} (hcs : 0 < cs) :
    S ≤ cs * numChunks S cs := by
  unfold numChunks
  have hdm := Nat.div_add_mod (S + cs - 1) cs
  have hlt := Nat.mod_lt (S + cs - 1) hcs
  omega

theorem mul_lt_of_lt_numChunks {S cs j : Nat} (hcs : 0 < cs)
    (hj : j < numChunks S cs) : cs * j < S := by
  unfold numChunks at hj
  have hdm := Nat.div_add_mod (S + cs - 1) cs
  have hlt := Nat.mod_lt (S + cs - 1) hcs
  have hmul : cs * j + cs ≤ cs * ((S + cs - 1) / cs) := by
    have h1 : j + 1 ≤ (S + cs - 1) / cs := hj
    calc cs * j + cs = cs * (j + 1) := by ring
    _ ≤ cs * ((S + cs - 1) / cs) := Nat.mul_le_mul_left cs h1
  omega

theorem le_mul_of_numChunks_le {S cs j : Nat} (hcs : 0 < cs)
    (hj : numChunks S cs ≤ j) : S ≤ cs * j := by
  calc S ≤ cs * numChunks S cs := le_mul_numChunks hcs
  _ ≤ cs * j := Nat.mul_le_mul_left cs hj

theorem chunkTasksAux_eq {S cs : Nat} (hcs : 0 < cs) (j : Nat) :
    chunkTasksAux S cs (cs * j) = (chunkList S cs).drop j := by
  obtain ⟨d, hd⟩ : ∃ d, numChunks S cs - j = d := ⟨_, rfl⟩
  induction d generalizing j with
  | zero =>
    have hj : numChunks S cs ≤ j := by omega
    have hS : S ≤ cs * j := le_mul_of_numChunks_le hcs hj
    rw [chunkTasksAux]
    rw [dif_neg (by omega)]
    rw [List.drop_eq_nil_of_le]
    simp only [chunkList, List.length_map, List.length_range]
    omega
  | succ d ih =>
    have hj : j < numChunks S cs := by omega
    have hS : cs * j < S := mul_lt_of_lt_numChunks hcs hj
    rw [chunkTasksAux, dif_pos ⟨hcs, hS⟩]
    have hlen : j < (chunkList S cs).length := by
      simp only [chunkList, List.length_map, List.length_range]
      exact hj
    rw [List.drop_eq_getElem_cons hlen]
    have hget : (chunkList S cs)[j] = chunkAt S cs j := by
      simp [chunkList]
    rw [hget]
    have hrec : cs * j + cs = cs * (j + 1) := by ring
    rw [hrec, ih (j + 1) (by omega)]
    rfl

theorem chunkTasks_eq_chunkList {S cs : Nat} (hcs : 0 < cs) :
    chunkTasks S cs = chunkList S cs := by
  have h := chunkTasksAux_eq (S := S) hcs 0
  simpa [chunkTasks] using h

/-- The mutable state of one `downloadFileToStream` run. `written` is the
byte sequence handed to `writeStream.write`, in order. -/
structure DLState where
  pending : List ChunkTask
  inflight : List ChunkTask
  buffers : List (Nat × List Nat)
  nextWriteOffset : Nat
  written : List Nat
  downloadedBytes : Nat
  writtenBytes : Nat
deriving DecidableEq, Repr

theorem length_filter_ne_lt {l : List (Nat × List Nat)} {k : Nat}
    {v : List Nat} (h : l.lookup k = some v) :
    (l.filter fun p => decide (p.1 ≠ k)).length < l.length := by
  induction l with
  | nil => simp [List.lookup] at h
  | cons a t ih =>
    rw [List.lookup] at h
    by_cases hk : k = a.1
    · have hd : (decide (a.1 ≠ k)) = false := by simp [hk]
      simp only [List.filter_cons, hd, Bool.false_eq_true, if_false,
        List.length_cons]
      have := List.length_filter_le (fun p => decide (p.1 ≠ k)) t
      omega
    · have hbeq : (k == a.1) = false := by simpa using hk
      rw [hbeq] at h
      simp only [cond_false] at h
      have := ih h
      simp only [List.filter_cons]
      by_cases ha : a.1 ≠ k
      · have hd : (decide (a.1 ≠ k)) = true := by simp [ha]
        simp only [hd, if_true, List.length_cons]
        omega
      · have hd : (decide (a.1 ≠ k)) = false := by simp [ha]
        simp only [hd, Bool.false_eq_true, if_false]
        omega

/-- `writeOrderedChunks`: while a chunk is buffered at the write cursor,
write it, count its bytes, delete it and advance the cursor by `chunkSize`. -/
def writeOrderedChunks (chunkSize : Nat) (st : DLState) : DLState :=
  match h : st.buffers.lookup st.nextWriteOffset with
  | none => st
  | some bytes =>
    writeOrderedChunks chunkSize
      { st with
        buffers := st.buffers.filter fun p => decide (p.1 ≠ st.nextWriteOffset),
        nextWriteOffset := st.nextWriteOffset + chunkSize,
        written := st.written ++ bytes,
        writtenBytes := st.writtenBytes + bytes.length }
termination_by st.buffers.length
decreasing_by exact length_filter_ne_lt h

theorem writeOrderedChunks_of_lookup_none {chunkSize : Nat} {st : DLState}
    (h : st.buffers.lookup st.nextWriteOffset = none) :
    writeOrderedChunks chunkSize st = st := by
  rw [writeOrderedChunks, h]

theorem writeOrderedChunks_of_lookup_some {chunkSize : Nat} {st : DLState}
    {bytes : List Nat} (h : st.buffers.lookup st.nextWriteOffset = some bytes) :
    writeOrderedChunks chunkSize st =
      writeOrderedChunks chunkSize
        { st with
          buffers := st.buffers.filter fun p => decide (p.1 ≠ st.nextWriteOffset),
          nextWriteOffset := st.nextWriteOffset + chunkSize,
          written := st.written ++ bytes,
          writtenBytes := st.writtenBytes + bytes.length } := by
  rw [writeOrderedChunks, h]

/-- One atomic transition of the download. `launch` is the dispatcher loop
launching the next chunk when the gate
`activeDownloads < maxConcurrent && Object.keys(buffers).length <
maxConcurrent * 2` lets it through; `complete` is a successful
`upload.GetFile` response for an in-flight chunk: deposit the bytes keyed by
the chunk's offset, add them to `downloadedBytes`, and run
`writeOrderedChunks`. -/
inductive DLStep (source : Nat → Nat) (threads chunkSize : Nat) :
    DLState → DLState → Prop
  | launch (c : ChunkTask) (rest : List ChunkTask) (st : DLState)
      (hp : st.pending = c :: rest)
      (hact : st.inflight.length < threads)
      (hbuf : st.buffers.length < 2 * threads) :
      DLStep source threads chunkSize st
        { st with pending := rest, inflight := st.inflight ++ [c] }
  | complete (c : ChunkTask) (st : DLState)
      (hc : c ∈ st.inflight) :
      DLStep source threads chunkSize st
        (writeOrderedChunks chunkSize
          { st with
            inflight := st.inflight.erase c,
            buffers := st.buffers ++ [(c.offset, chunkBytes source c)],
            downloadedBytes :=
              st.downloadedBytes + (chunkBytes source c).length })

/-- The initial state of `downloadFileToStream`. -/
def initDLState (totalSize chunkSize : Nat) : DLState :=
  ⟨chunkTasks totalSize chunkSize, [], [], 0, [], 0, 0⟩

/-- States reachable during a (failure-free) run of `downloadFileToStream`. -/
inductive DLReachable (source : Nat → Nat)
    (threads chunkSize totalSize : Nat) : DLState → Prop
  | init : DLReachable source threads chunkSize totalSize
      (initDLState totalSize chunkSize)
  | step {s t : DLState} :
      DLReachable source threads chunkSize totalSize s →
      DLStep source threads chunkSize s t →
      DLReachable source threads chunkSize totalSize t

theorem chunkAt_injective (S : Nat) {cs : Nat} (hcs : 0 < cs) :
    Function.Injective (chunkAt S cs) := by
  intro i j hij
  have h := congrArg ChunkTask.offset hij
  simp only [chunkAt] at h
  exact Nat.eq_of_mul_eq_mul_left hcs h

theorem lookup_bufMap {cs : Nat} (hcs : 0 < cs) (g : Nat → List Nat)
    (buf : List Nat) (w : Nat) :
    ((buf.map fun i => (cs * i, g i)).lookup (cs * w)) =
      if w ∈ buf then some (g w) else none := by
  induction buf with
  | nil => simp
  | cons i t ih =>
    simp only [List.map_cons, List.lookup]
    by_cases hiw : w = i
    · subst hiw
      simp
    · have hne : cs * w ≠ cs * i := fun hc =>
        hiw (Nat.eq_of_mul_eq_mul_left hcs hc)
      have hbeq : (cs * w == cs * i) = false := by simpa using hne
      rw [hbeq]
      simp only [cond_false, ih, List.mem_cons]
      by_cases hm : w ∈ t
      · simp [hm, hiw]
      · simp [hm, hiw]

theorem filter_bufMap {cs : Nat} (hcs : 0 < cs) (g : Nat → List Nat)
    (buf : List Nat) (w : Nat) :
    ((buf.map fun i => (cs * i, g i)).filter
        fun p => decide (p.1 ≠ cs * w)) =
      (buf.filter fun i => decide (i ≠ w)).map fun i => (cs * i, g i) := by
  induction buf with
  | nil => simp
  | cons i t ih =>
    simp only [List.map_cons, List.filter_cons]
    by_cases hiw : i = w
    · subst hiw
      simp only [ne_eq, not_true_eq_false, decide_False]
      simpa using ih
    · have hne : cs * i ≠ cs * w := fun hc =>
        hiw (Nat.eq_of_mul_eq_mul_left hcs hc)
      simp only [ne_eq] at ih ⊢
      simp only [hne, not_false_eq_true, decide_True, if_true, hiw,
        List.map_cons]
      rw [ih]

theorem mem_filter_ne_length_lt {l : List Nat} {a : Nat} (h : a ∈ l) :
    (l.filter fun x => decide (x ≠ a)).length < l.length := by
  induction l with
  | nil => simp at h
  | cons x t ih =>
    simp only [List.filter_cons]
    by_cases hx : x = a
    · subst hx
      simp only [ne_eq, not_true_eq_false, decide_False, Bool.false_eq_true,
        if_false, List.length_cons]
      have := List.length_filter_le (fun y => decide (y ≠ x)) t
      simp only [ne_eq] at this
      omega
    · have hat : a ∈ t := by
        rcases List.mem_cons.mp h with h1 | h1
        · exact absurd h1.symm hx
        · exact h1
      have := ih hat
      simp only [ne_eq, hx, not_false_eq_true, decide_True, if_true,
        List.length_cons]
      simp only [ne_eq] at this
      omega

theorem nodup_filter_ne {l : List Nat} {a : Nat} (h : l.Nodup) :
    (l.filter fun x => decide (x ≠ a)) = l.erase a := by
  rw [h.erase_eq_filter]
  apply List.filter_congr
  intro x _
  cases Nat.decEq x a with
  | _ h2 => simp [h2]

theorem written_extend (source : Nat → Nat) {S cs w : Nat} (hcs : 0 < cs)
    (hw : w < numChunks S cs) :
    (List.range (min (cs * w) S)).map source ++
        chunkBytes source (chunkAt S cs w) =
      (List.range (min (cs * (w + 1)) S)).map source := by
  have h1 : cs * w < S := mul_lt_of_lt_numChunks hcs hw
  have hmin1 : min (cs * w) S = cs * w := by omega
  have hmul : cs * (w + 1) = cs * w + cs := by ring
  have hmin2 : min (cs * (w + 1)) S = cs * w + min cs (S - cs * w) := by
    omega
  rw [hmin1, hmin2, List.range_add, List.map_append, List.map_map]
  rfl

/-- The inductive invariant of a `downloadFileToStream` run: `w` chunks are
written, `m` launched; `flight` and `buf` are the indices of the in-flight
and buffered chunks. -/
structure DLCore (source : Nat → Nat) (threads chunkSize totalSize : Nat)
    (st : DLState) (w m : Nat) (flight buf : List Nat) : Prop where
  hwm : w ≤ m
  hmn : m ≤ numChunks totalSize chunkSize
  hpending : st.pending = (chunkList totalSize chunkSize).drop m
  hnext : st.nextWriteOffset = chunkSize * w
  hwritten : st.written =
    (List.range (min (chunkSize * w) totalSize)).map source
  hwb : st.writtenBytes = st.written.length
  hinflight : st.inflight = flight.map (chunkAt totalSize chunkSize)
  hbuffers : st.buffers = buf.map fun i =>
    (chunkSize * i, chunkBytes source (chunkAt totalSize chunkSize i))
  hperm : List.Perm (flight ++ buf) (List.range' w (m - w))
  hdb : st.downloadedBytes = st.writtenBytes +
    (buf.map fun i =>
      (chunkBytes source (chunkAt totalSize chunkSize i)).length).sum
  hflen : flight.length ≤ threads
  hsum : flight.length + buf.length ≤ 3 * threads - 1

/-- The invariant proper: some decomposition satisfies `DLCore` and no chunk
is buffered at the write cursor (`writeOrderedChunks` has fully drained). -/
def DLInv (source : Nat → Nat) (threads chunkSize totalSize : Nat)
    (st : DLState) : Prop :=
  ∃ w m flight buf,
    DLCore source threads chunkSize totalSize st w m flight buf ∧ w ∉ buf

theorem writeOrderedChunks_inv {source : Nat → Nat}
    {threads chunkSize totalSize : Nat} (hcs : 0 < chunkSize) :
    ∀ (d : Nat) (st : DLState) (w m : Nat) (flight buf : List Nat),
      buf.length ≤ d →
      DLCore source threads chunkSize totalSize st w m flight buf →
      DLInv source threads chunkSize totalSize
        (writeOrderedChunks chunkSize st) := by
  intro d
  induction d with
  | zero =>
    intro st w m flight buf hlen hcore
    have hbe : buf = [] := List.length_eq_zero.mp (by omega)
    subst hbe
    have hlk : st.buffers.lookup st.nextWriteOffset = none := by
      rw [hcore.hbuffers]
      simp
    rw [writeOrderedChunks_of_lookup_none hlk]
    exact ⟨w, m, flight, [], hcore, by simp⟩
  | succ d ih =>
    intro st w m flight buf hlen hcore
    by_cases hw : w ∈ buf
    · have hnodup : (flight ++ buf).Nodup :=
        hcore.hperm.nodup_iff.mpr (List.nodup_range' w (m - w))
      have hsplit := List.nodup_append.mp hnodup
      have hbufnd : buf.Nodup := hsplit.2.1
      have hwnf : w ∉ flight := fun hwf => hsplit.2.2 hwf hw
      have hwm2 : w < m := by
        have hmem : w ∈ List.range' w (m - w) :=
          hcore.hperm.mem_iff.mp (List.mem_append.mpr (Or.inr hw))
        have := List.mem_range'_1.mp hmem
        omega
      have hmn2 : m ≤ numChunks totalSize chunkSize := hcore.hmn
      have hlk : st.buffers.lookup st.nextWriteOffset =
          some (chunkBytes source (chunkAt totalSize chunkSize w)) := by
        rw [hcore.hbuffers, hcore.hnext, lookup_bufMap hcs]
        simp [hw]
      rw [writeOrderedChunks_of_lookup_some hlk]
      have hlt := mem_filter_ne_length_lt hw
      set buf2 := buf.filter fun i => decide (i ≠ w) with hbuf2
      have herase : buf2 = buf.erase w := nodup_filter_ne hbufnd
      have hpermbuf : List.Perm buf (w :: buf2) := by
        rw [herase]
        exact List.perm_cons_erase hw
      refine ih _ (w + 1) m flight buf2 (by omega) ?_
      constructor
      · omega
      · exact hcore.hmn
      · exact hcore.hpending
      · simp only [hcore.hnext]
        ring
      · simp only [hcore.hwritten]
        exact written_extend source hcs (by omega)
      · simp only [hcore.hwb, List.length_append]
      · exact hcore.hinflight
      · simp only [hcore.hbuffers, hcore.hnext]
        exact filter_bufMap hcs _ buf w
      · have h1 : List.Perm (flight ++ buf2) ((flight ++ buf).erase w) := by
          rw [List.erase_append_right buf hwnf, ← herase]
        have h2 : List.Perm ((flight ++ buf).erase w)
            ((List.range' w (m - w)).erase w) := hcore.hperm.erase w
        have h3 : (List.range' w (m - w)).erase w =
            List.range' (w + 1) (m - (w + 1)) := by
          have hmw : m - w = (m - (w + 1)) + 1 := by omega
          rw [hmw, List.range'_succ, List.erase_cons_head]
        exact (h1.trans h2).trans (h3 ▸ (List.Perm.refl _))
      · have hsum2 : ((buf.map fun i =>
            (chunkBytes source (chunkAt totalSize chunkSize i)).length).sum) =
            (chunkBytes source (chunkAt totalSize chunkSize w)).length +
            ((buf2.map fun i =>
              (chunkBytes source (chunkAt totalSize chunkSize i)).length).sum) := by
          have := (hpermbuf.map fun i =>
            (chunkBytes source (chunkAt totalSize chunkSize i)).length).sum_eq
          simpa using this
        simp only [hcore.hdb, hsum2]
        omega
      · exact hcore.hflen
      · have : buf2.length ≤ buf.length := by
          rw [hbuf2]
          exact List.length_filter_le _ buf
        have := hcore.hsum
        omega
    · have hlk : st.buffers.lookup st.nextWriteOffset = none := by
        rw [hcore.hbuffers, hcore.hnext, lookup_bufMap hcs]
        simp [hw]
      rw [writeOrderedChunks_of_lookup_none hlk]
      exact ⟨w, m, flight, buf, hcore, hw⟩

theorem DLStep_inv {source : Nat → Nat} {threads chunkSize totalSize : Nat}
    (hcs : 0 < chunkSize) {s s2 : DLState}
    (hstep : DLStep source threads chunkSize s s2)
    (hinv : DLInv source threads chunkSize totalSize s) :
    DLInv source threads chunkSize totalSize s2 := by
  obtain ⟨w, m, flight, buf, hcore, hwnb⟩ := hinv
  cases hstep with
  | launch c rest st hp hact hbuf =>
    have hdrop : (chunkList totalSize chunkSize).drop m = c :: rest :=
      hcore.hpending.symm.trans hp
    have hlen : (chunkList totalSize chunkSize).length =
        numChunks totalSize chunkSize := by
      simp [chunkList]
    have hmlt : m < numChunks totalSize chunkSize := by
      by_contra hge
      rw [List.drop_eq_nil_of_le (by omega)] at hdrop
      exact List.noConfusion hdrop
    have hmlt2 : m < (chunkList totalSize chunkSize).length := by omega
    have hcons := List.drop_eq_getElem_cons hmlt2
    rw [hdrop] at hcons
    have hgetm : (chunkList totalSize chunkSize)[m] =
        chunkAt totalSize chunkSize m := by
      simp [chunkList]
    rw [hgetm] at hcons
    have hc : c = chunkAt totalSize chunkSize m := (List.cons.injEq _ _ _ _ ▸ hcons).1
    have hrest : rest = (chunkList totalSize chunkSize).drop (m + 1) :=
      (List.cons.injEq _ _ _ _ ▸ hcons).2
    have hflight : s.inflight.length = flight.length := by
      rw [hcore.hinflight, List.length_map]
    have hbufl : s.buffers.length = buf.length := by
      rw [hcore.hbuffers, List.length_map]
    refine ⟨w, m + 1, flight ++ [m], buf, ?_, hwnb⟩
    constructor
    · have := hcore.hwm
      omega
    · omega
    · exact hrest
    · exact hcore.hnext
    · exact hcore.hwritten
    · exact hcore.hwb
    · simp only [hcore.hinflight, hc, List.map_append, List.map_cons,
        List.map_nil]
    · exact hcore.hbuffers
    · have hp1 : List.Perm ((flight ++ [m]) ++ buf) ((flight ++ buf) ++ [m]) := by
        rw [List.append_assoc, List.append_assoc]
        exact List.Perm.append_left flight (List.perm_append_comm)
      have hp2 : List.Perm ((flight ++ buf) ++ [m])
          (List.range' w (m - w) ++ [m]) := hcore.hperm.append_right [m]
      have hp3 : List.range' w (m - w) ++ [m] =
          List.range' w (m + 1 - w) := by
        have hwm := hcore.hwm
        have h1 : m + 1 - w = (m - w) + 1 := by omega
        have h2 : w + (m - w) = m := by omega
        rw [h1, List.range'_1_concat, h2]
      exact (hp1.trans hp2).trans (hp3 ▸ List.Perm.refl _)
    · exact hcore.hdb
    · simp only [List.length_append, List.length_cons, List.length_nil]
      omega
    · simp only [List.length_append, List.length_cons, List.length_nil]
      omega
  | complete c st hc =>
    rw [hcore.hinflight] at hc
    obtain ⟨i, hif, hic⟩ := List.mem_map.mp hc
    refine writeOrderedChunks_inv hcs (buf ++ [i]).length _ w m
      (flight.erase i) (buf ++ [i]) (le_refl _) ?_
    have hlerase := List.length_erase_of_mem hif
    have hfpos : 0 < flight.length := List.length_pos.mpr
      (fun hnil => by simp [hnil] at hif)
    constructor
    · exact hcore.hwm
    · exact hcore.hmn
    · exact hcore.hpending
    · exact hcore.hnext
    · exact hcore.hwritten
    · exact hcore.hwb
    · simp only [hcore.hinflight, ← hic,
        ← List.map_erase (chunkAt_injective totalSize hcs)]
    · simp only [hcore.hbuffers, ← hic, List.map_append, List.map_cons,
        List.map_nil, chunkAt]
    · have hp0 : List.Perm flight (i :: flight.erase i) :=
        List.perm_cons_erase hif
      have hp1 : List.Perm (flight.erase i ++ (buf ++ [i]))
          (i :: (flight.erase i ++ buf)) := by
        rw [← List.append_assoc]
        refine (List.perm_append_comm).trans ?_
        simp
      have hp2 : List.Perm (i :: (flight.erase i ++ buf)) (flight ++ buf) := by
        have := (hp0.append_right buf).symm
        simpa using this
      exact (hp1.trans hp2).trans hcore.hperm
    · simp only [List.map_append, List.map_cons, List.map_nil,
        List.sum_append, ← hic]
      have := hcore.hdb
      simp only [this]
      simp [chunkAt]
      omega
    · have := hcore.hflen
      omega
    · have := hcore.hsum
      simp only [List.length_append, List.length_cons, List.length_nil]
      omega

/-- Every state reachable in a failure-free `downloadFileToStream` run
satisfies the invariant. -/
theorem DLReachable_inv {source : Nat → Nat}
    {threads chunkSize totalSize : Nat} (hcs : 0 < chunkSize) {st : DLState}
    (hr : DLReachable source threads chunkSize totalSize st) :
    DLInv source threads chunkSize totalSize st := by
  induction hr with
  | init =>
    refine ⟨0, 0, [], [], ?_, by simp⟩
    constructor
    · exact le_refl 0
    · exact Nat.zero_le _
    · rw [show (initDLState totalSize chunkSize).pending =
        chunkTasks totalSize chunkSize from rfl,
        chunkTasks_eq_chunkList hcs]
      simp
    · simp [initDLState]
    · simp [initDLState]
    · simp [initDLState]
    · simp [initDLState]
    · simp [initDLState]
    · simp
    · simp [initDLState]
    · simp
    · simp
  | step _ hstep ih => exact DLStep_inv hcs hstep ih

/-- The guard of `waitForDrain`: it awaits a `drain` event only when the
stream reports a non-zero high-water mark (JS truthiness) and
`writtenBytes - downloadedBytes > writableHighWaterMark` (JS numbers:
subtraction over the integers). -/
def waitForDrainAwaits (writableHighWaterMark : Nat) (st : DLState) : Prop :=
  writableHighWaterMark ≠ 0 ∧
    (st.writtenBytes : Int) - (st.downloadedBytes : Int) >
      (writableHighWaterMark : Int)

/-- C10: at every reachable instant of a `downloadFileToStream` run,
`writtenBytes ≤ downloadedBytes` (bytes are counted as downloaded when
deposited, before they can be written), so the condition inside
`waitForDrain` is never true and `waitForDrain` resolves immediately for
every high-water mark. -/
theorem C10_waitForDrain_immediate (source : Nat → Nat)
    {threads chunkSize totalSize : Nat} (hcs : 0 < chunkSize) {st : DLState}
    (hr : DLReachable source threads chunkSize totalSize st) :
    st.writtenBytes ≤ st.downloadedBytes ∧
    ∀ writableHighWaterMark : Nat,
      ¬ waitForDrainAwaits writableHighWaterMark st := by
  obtain ⟨w, m, flight, buf, hcore, hwnb⟩ := DLReachable_inv hcs hr
  have hle : st.writtenBytes ≤ st.downloadedBytes := by
    rw [hcore.hdb]
    omega
  refine ⟨hle, fun hwm hawait => ?_⟩
  obtain ⟨-, hgt⟩ := hawait
  omega

/-- Witness for C10 at the initial state of a concrete run
(`threads = 2`, `chunkSize = 1`, `totalSize = 5`). -/
theorem C10_waitForDrain_immediate_witness :
    (0 : Nat) < 1 ∧
    (initDLState 5 1).writtenBytes ≤ (initDLState 5 1).downloadedBytes ∧
    ¬ waitForDrainAwaits 16384 (initDLState 5 1) := by
  refine ⟨by decide, ?_, ?_⟩
  · exact (C10_waitForDrain_immediate (fun i => i) (one_pos)
      (@DLReachable.init (fun i => i) 2 1 5)).1
  · exact (C10_waitForDrain_immediate (fun i => i) (one_pos)
      (@DLReachable.init (fun i => i) 2 1 5)).2 16384

/-- C3: for a successful download (all chunks launched, fetched and
drained), the byte sequence handed to the stream is exactly the source byte
sequence, and the byte at offset `i` is the byte of chunk `⌊i / chunkSize⌋`
at its internal offset `i % chunkSize` — for every `i < totalSize`. -/
theorem C3_ordered_chunks (source : Nat → Nat)
    {threads chunkSize totalSize : Nat} (hcs : 0 < chunkSize) {st : DLState}
    (hr : DLReachable source threads chunkSize totalSize st)
    (hpend : st.pending = []) (hinf : st.inflight = [])
    (hbuf : st.buffers = []) :
    st.written = (List.range totalSize).map source ∧
    ∀ i, i < totalSize →
      st.written[i]? = some (source i) ∧
      (chunkBytes source
        (chunkAt totalSize chunkSize (i / chunkSize)))[i % chunkSize]? =
        some (source i) := by
  obtain ⟨w, m, flight, buf, hcore, hwnb⟩ := DLReachable_inv hcs hr
  have hn : (chunkList totalSize chunkSize).length =
      numChunks totalSize chunkSize := by simp [chunkList]
  have hdrop : (chunkList totalSize chunkSize).drop m = [] :=
    hcore.hpending.symm.trans hpend
  have hm : m = numChunks totalSize chunkSize := by
    have h1 := List.drop_eq_nil_iff.mp hdrop
    have h2 := hcore.hmn
    omega
  have hflight : flight = [] :=
    List.map_eq_nil_iff.mp (hcore.hinflight.symm.trans hinf)
  have hbufe : buf = [] :=
    List.map_eq_nil_iff.mp (hcore.hbuffers.symm.trans hbuf)
  have hwm : w = m := by
    have hp := hcore.hperm
    rw [hflight, hbufe] at hp
    have hlen := hp.length_eq
    simp [List.length_range'] at hlen
    have := hcore.hwm
    omega
  have hminS : min (chunkSize * w) totalSize = totalSize := by
    have h1 := le_mul_numChunks (S := totalSize) hcs
    have : chunkSize * numChunks totalSize chunkSize ≤ chunkSize * w := by
      rw [hwm, hm]
    omega
  have hwrit : st.written = (List.range totalSize).map source := by
    rw [hcore.hwritten, hminS]
  refine ⟨hwrit, fun i hi => ⟨?_, ?_⟩⟩
  · rw [hwrit]
    simp [List.getElem?_map, List.getElem?_range, hi]
  · have hdm := Nat.div_add_mod i chunkSize
    have hmodlt : i % chunkSize < chunkSize := Nat.mod_lt _ hcs
    have hdivle : chunkSize * (i / chunkSize) ≤ i := by omega
    have hlim : i % chunkSize <
        min chunkSize (totalSize - chunkSize * (i / chunkSize)) := by
      omega
    simp only [chunkBytes, chunkAt, List.getElem?_map]
    rw [List.getElem?_range hlim]
    simp [hdm]

/-- Witness for C3: a complete run with `totalSize = 2`, `chunkSize = 1`,
one thread, over the source `i ↦ i + 10`: the stream receives `[10, 11]`. -/
theorem C3_ordered_chunks_witness :
    DLReachable (fun i => i + 10) 1 1 2 ⟨[], [], [], 2, [10, 11], 2, 2⟩ ∧
    (⟨[], [], [], 2, [10, 11], 2, 2⟩ : DLState).written =
      (List.range 2).map (fun i => i + 10) ∧
    (⟨[], [], [], 2, [10, 11], 2, 2⟩ : DLState).written[1]? = some 11 ∧
    (chunkBytes (fun i => i + 10) (chunkAt 2 1 (1 / 1)))[1 % 1]? = some 11 := by
  have hp0 : (initDLState 2 1).pending =
      (⟨0, 1, 0⟩ : ChunkTask) :: [⟨1, 1, 0⟩] := by
    show chunkTasks 2 1 = _
    rw [chunkTasks_eq_chunkList one_pos]
    decide
  have step1 : DLStep (fun i => i + 10) 1 1 (initDLState 2 1)
      ⟨[⟨1, 1, 0⟩], [⟨0, 1, 0⟩], [], 0, [], 0, 0⟩ :=
    DLStep.launch ⟨0, 1, 0⟩ [⟨1, 1, 0⟩] (initDLState 2 1) hp0
      (by decide) (by decide)
  have heq2 : writeOrderedChunks 1
      (⟨[⟨1, 1, 0⟩], [], [(0, [10])], 0, [], 1, 0⟩ : DLState) =
      ⟨[⟨1, 1, 0⟩], [], [], 1, [10], 1, 1⟩ := by
    rw [@writeOrderedChunks_of_lookup_some 1
      ⟨[⟨1, 1, 0⟩], [], [(0, [10])], 0, [], 1, 0⟩ [10] rfl]
    exact writeOrderedChunks_of_lookup_none rfl
  have step2 : DLStep (fun i => i + 10) 1 1
      (⟨[⟨1, 1, 0⟩], [⟨0, 1, 0⟩], [], 0, [], 0, 0⟩ : DLState)
      ⟨[⟨1, 1, 0⟩], [], [], 1, [10], 1, 1⟩ := by
    rw [← heq2]
    exact DLStep.complete ⟨0, 1, 0⟩ _ (by decide)
  have step3 : DLStep (fun i => i + 10) 1 1
      (⟨[⟨1, 1, 0⟩], [], [], 1, [10], 1, 1⟩ : DLState)
      ⟨[], [⟨1, 1, 0⟩], [], 1, [10], 1, 1⟩ :=
    DLStep.launch ⟨1, 1, 0⟩ [] _ rfl (by decide) (by decide)
  have heq4 : writeOrderedChunks 1
      (⟨[], [], [(1, [11])], 1, [10], 2, 1⟩ : DLState) =
      ⟨[], [], [], 2, [10, 11], 2, 2⟩ := by
    rw [@writeOrderedChunks_of_lookup_some 1
      ⟨[], [], [(1, [11])], 1, [10], 2, 1⟩ [11] rfl]
    exact writeOrderedChunks_of_lookup_none rfl
  have step4 : DLStep (fun i => i + 10) 1 1
      (⟨[], [⟨1, 1, 0⟩], [], 1, [10], 1, 1⟩ : DLState)
      ⟨[], [], [], 2, [10, 11], 2, 2⟩ := by
    rw [← heq4]
    exact DLStep.complete ⟨1, 1, 0⟩ _ (by decide)
  have hreach : DLReachable (fun i => i + 10) 1 1 2
      ⟨[], [], [], 2, [10, 11], 2, 2⟩ :=
    ((((DLReachable.init.step step1).step step2).step step3).step step4)
  have h := C3_ordered_chunks (fun i => i + 10) one_pos hreach rfl rfl rfl
  exact ⟨hreach, h.1, (h.2 1 (by decide)).1, (h.2 1 (by decide)).2⟩

/-- The state reached by the "burst" schedule with `threads = 2`,
`chunkSize = 1`, `totalSize = 5`: chunk 0 is slow while chunks 1–4 are
launched and 1–3 complete, leaving two chunks in flight and three buffered. -/
def burstState : DLState :=
  ⟨[], [⟨0, 1, 0⟩, ⟨4, 1, 0⟩], [(1, [0]), (2, [0]), (3, [0])], 0, [], 3, 0⟩

theorem reachable_burstState :
    DLReachable (fun _ => 0) 2 1 5 burstState := by
  have hp0 : (initDLState 5 1).pending = (⟨0, 1, 0⟩ : ChunkTask) ::
      [⟨1, 1, 0⟩, ⟨2, 1, 0⟩, ⟨3, 1, 0⟩, ⟨4, 1, 0⟩] := by
    show chunkTasks 5 1 = _
    rw [chunkTasks_eq_chunkList one_pos]
    decide
  have l0 : DLStep (fun _ => 0) 2 1 (initDLState 5 1)
      ⟨[⟨1, 1, 0⟩, ⟨2, 1, 0⟩, ⟨3, 1, 0⟩, ⟨4, 1, 0⟩], [⟨0, 1, 0⟩], [],
        0, [], 0, 0⟩ :=
    DLStep.launch ⟨0, 1, 0⟩ _ _ hp0 (by decide) (by decide)
  have l1 : DLStep (fun _ => 0) 2 1
      (⟨[⟨1, 1, 0⟩, ⟨2, 1, 0⟩, ⟨3, 1, 0⟩, ⟨4, 1, 0⟩], [⟨0, 1, 0⟩], [],
        0, [], 0, 0⟩ : DLState)
      ⟨[⟨2, 1, 0⟩, ⟨3, 1, 0⟩, ⟨4, 1, 0⟩], [⟨0, 1, 0⟩, ⟨1, 1, 0⟩], [],
        0, [], 0, 0⟩ :=
    DLStep.launch ⟨1, 1, 0⟩ _ _ rfl (by decide) (by decide)
  have c1 : DLStep (fun _ => 0) 2 1
      (⟨[⟨2, 1, 0⟩, ⟨3, 1, 0⟩, ⟨4, 1, 0⟩], [⟨0, 1, 0⟩, ⟨1, 1, 0⟩], [],
        0, [], 0, 0⟩ : DLState)
      ⟨[⟨2, 1, 0⟩, ⟨3, 1, 0⟩, ⟨4, 1, 0⟩], [⟨0, 1, 0⟩], [(1, [0])],
        0, [], 1, 0⟩ := by
    rw [← @writeOrderedChunks_of_lookup_none 1
      ⟨[⟨2, 1, 0⟩, ⟨3, 1, 0⟩, ⟨4, 1, 0⟩], [⟨0, 1, 0⟩], [(1, [0])],
        0, [], 1, 0⟩ rfl]
    exact DLStep.complete ⟨1, 1, 0⟩ _ (by decide)
  have l2 : DLStep (fun _ => 0) 2 1
      (⟨[⟨2, 1, 0⟩, ⟨3, 1, 0⟩, ⟨4, 1, 0⟩], [⟨0, 1, 0⟩], [(1, [0])],
        0, [], 1, 0⟩ : DLState)
      ⟨[⟨3, 1, 0⟩, ⟨4, 1, 0⟩], [⟨0, 1, 0⟩, ⟨2, 1, 0⟩], [(1, [0])],
        0, [], 1, 0⟩ :=
    DLStep.launch ⟨2, 1, 0⟩ _ _ rfl (by decide) (by decide)
  have c2 : DLStep (fun _ => 0) 2 1
      (⟨[⟨3, 1, 0⟩, ⟨4, 1, 0⟩], [⟨0, 1, 0⟩, ⟨2, 1, 0⟩], [(1, [0])],
        0, [], 1, 0⟩ : DLState)
      ⟨[⟨3, 1, 0⟩, ⟨4, 1, 0⟩], [⟨0, 1, 0⟩], [(1, [0]), (2, [0])],
        0, [], 2, 0⟩ := by
    rw [← @writeOrderedChunks_of_lookup_none 1
      ⟨[⟨3, 1, 0⟩, ⟨4, 1, 0⟩], [⟨0, 1, 0⟩], [(1, [0]), (2, [0])],
        0, [], 2, 0⟩ rfl]
    exact DLStep.complete ⟨2, 1, 0⟩ _ (by decide)
  have l3 : DLStep (fun _ => 0) 2 1
      (⟨[⟨3, 1, 0⟩, ⟨4, 1, 0⟩], [⟨0, 1, 0⟩], [(1, [0]), (2, [0])],
        0, [], 2, 0⟩ : DLState)
      ⟨[⟨4, 1, 0⟩], [⟨0, 1, 0⟩, ⟨3, 1, 0⟩], [(1, [0]), (2, [0])],
        0, [], 2, 0⟩ :=
    DLStep.launch ⟨3, 1, 0⟩ _ _ rfl (by decide) (by decide)
  have c3 : DLStep (fun _ => 0) 2 1
      (⟨[⟨4, 1, 0⟩], [⟨0, 1, 0⟩, ⟨3, 1, 0⟩], [(1, [0]), (2, [0])],
        0, [], 2, 0⟩ : DLState)
      ⟨[⟨4, 1, 0⟩], [⟨0, 1, 0⟩], [(1, [0]), (2, [0]), (3, [0])],
        0, [], 3, 0⟩ := by
    rw [← @writeOrderedChunks_of_lookup_none 1
      ⟨[⟨4, 1, 0⟩], [⟨0, 1, 0⟩], [(1, [0]), (2, [0]), (3, [0])],
        0, [], 3, 0⟩ rfl]
    exact DLStep.complete ⟨3, 1, 0⟩ _ (by decide)
  have l4 : DLStep (fun _ => 0) 2 1
      (⟨[⟨4, 1, 0⟩], [⟨0, 1, 0⟩], [(1, [0]), (2, [0]), (3, [0])],
        0, [], 3, 0⟩ : DLState) burstState :=
    DLStep.launch ⟨4, 1, 0⟩ _ _ rfl (by decide) (by decide)
  exact ((((((((DLReachable.init.step l0).step l1).step c1).step l2).step
    c2).step l3).step c3).step l4)

/-- C4 counterexample: in a failure-free run with `downloadThreads = 2`
(`chunkSize = 1`, `totalSize = 5`) the state `burstState` is reachable —
every launch passed the gate — yet it holds 2 in-flight plus 3 buffered
chunks: `5 > 2 × downloadThreads`. The gate checks
`activeDownloads ≥ maxConcurrent` and `|buffers| ≥ 2 × maxConcurrent`
separately, so their sum is not bounded by `2 × downloadThreads`. -/
theorem C4_backpressure_counterexample :
    DLReachable (fun _ => 0) 2 1 5 burstState ∧
    burstState.inflight.length + burstState.buffers.length = 5 ∧
    ¬ (burstState.inflight.length + burstState.buffers.length ≤ 2 * 2) := by
  exact ⟨reachable_burstState, by decide, by decide⟩

/-- C4 amended: in a failure-free accelerated download, at every reachable
instant the number of in-flight chunks is at most `downloadThreads`, the
number of in-flight plus buffered chunks is at most `3 × downloadThreads − 1`,
and the number of buffered chunks alone is at most `3 × downloadThreads − 2`
(the launch gate only guarantees `in-flight < downloadThreads` and
`buffered < 2 × downloadThreads` at the instant a chunk is launched, and up
to `downloadThreads` in-flight chunks can later deposit into the buffer). -/
theorem C4_backpressure_amended (source : Nat → Nat)
    {threads chunkSize totalSize : Nat} (hcs : 0 < chunkSize) {st : DLState}
    (hr : DLReachable source threads chunkSize totalSize st) :
    st.inflight.length ≤ threads ∧
    st.inflight.length + st.buffers.length ≤ 3 * threads - 1 ∧
    st.buffers.length ≤ 3 * threads - 2 := by
  obtain ⟨w, m, flight, buf, hcore, hwnb⟩ := DLReachable_inv hcs hr
  have hfl : st.inflight.length = flight.length := by
    rw [hcore.hinflight, List.length_map]
  have hbl : st.buffers.length = buf.length := by
    rw [hcore.hbuffers, List.length_map]
  have hflen := hcore.hflen
  have hsum := hcore.hsum
  refine ⟨by omega, by omega, ?_⟩
  match buf with
  | [] =>
    rw [hbl]
    exact Nat.zero_le _
  | i :: rest =>
    have himem : i ∈ flight ++ (i :: rest) := by simp
    have hirange := List.mem_range'_1.mp (hcore.hperm.mem_iff.mp himem)
    have hwrange : w ∈ List.range' w (m - w) :=
      List.mem_range'_1.mpr ⟨le_refl w, by omega⟩
    have hwmem : w ∈ flight ++ (i :: rest) := hcore.hperm.mem_iff.mpr hwrange
    have hwfl : w ∈ flight := by
      rcases List.mem_append.mp hwmem with h | h
      · exact h
      · exact absurd h hwnb
    have hfpos : 0 < flight.length := List.length_pos.mpr
      (fun hnil => by simp [hnil] at hwfl)
    rw [hbl]
    simp only [List.length_cons] at hsum ⊢
    omega

/-- Witness for the amended C4 at the concrete reachable state
`burstState` (`threads = 2`): 2 ≤ 2 in flight, 2 + 3 ≤ 5 and 3 ≤ 4. -/
theorem C4_backpressure_amended_witness :
    (0 : Nat) < 1 ∧
    burstState.inflight.length ≤ 2 ∧
    burstState.inflight.length + burstState.buffers.length ≤ 3 * 2 - 1 ∧
    burstState.buffers.length ≤ 3 * 2 - 2 := by
  have h := C4_backpressure_amended (fun _ => 0) one_pos reachable_burstState
  exact ⟨by decide, h.1, h.2.1, h.2.2⟩

end TeleMediaSpider
